import Mathlib

/-!
Shallow embedding of the post-list processor in `src/utils/post.ts`:
filtering by draft status, sorting by publication date, sorting by
category then filename sequence number, category deduplication.

JavaScript arrays of collection entries are embedded as `List Post`,
timestamps (`Date.prototype.valueOf`) as `Int`, the optional `category`
and `draft` fields as `Option`.  `Array.prototype.sort` with a comparator
`cmp` is embedded as the stable `List.mergeSort` with the boolean
relation `fun a b => cmp a b ≤ 0`.  `String.prototype.localeCompare`
with locale `zh-CN` is an external collation; it is embedded as a
parameter `lc : String → String → Int` together with the axioms of a
total preorder comparison (`LawfulLocaleCompare`).
-/

/-- The JavaScript number values that can appear in the comparator of
`getSortedPostsByCategory`: ordinary (integral) numbers, the two
infinities, and NaN. -/
inductive JsNum where
  | num : Int → JsNum
  | posInf : JsNum
  | negInf : JsNum
  | nan : JsNum
deriving DecidableEq, Repr

namespace JsNum

/-- JavaScript strict inequality `!==` on numbers: `NaN !== x` is true
for every `x`, including `NaN` itself. -/
def jsNe : JsNum → JsNum → Bool
  | num a, num b => a != b
  | posInf, posInf => false
  | negInf, negInf => false
  | _, _ => true

/-- JavaScript subtraction on these values: `Infinity - Infinity` and
`(-Infinity) - (-Infinity)` are `NaN`, and `NaN` is absorbing. -/
def sub : JsNum → JsNum → JsNum
  | num a, num b => num (a - b)
  | num _, posInf => negInf
  | num _, negInf => posInf
  | posInf, num _ => posInf
  | posInf, negInf => posInf
  | negInf, num _ => negInf
  | negInf, posInf => negInf
  | posInf, posInf => nan
  | negInf, negInf => nan
  | nan, _ => nan
  | _, nan => nan

/-- Whether a comparator result puts the first argument not after the
second in a JavaScript stable comparator sort: true exactly for results
`≤ 0`.  A `NaN` comparator result is not `≤ 0`. -/
def leZero : JsNum → Bool
  | num a => decide (a ≤ 0)
  | negInf => true
  | posInf => false
  | nan => false

end JsNum

/-- A content-collection entry as used by `src/utils/post.ts`:
`slug` is the path-like identifier, `pubDate` the timestamp value of
`data.pubDate`, `category` the optional `data.category`, and `draft`
the optional `data.draft` flag. -/
structure Post where
  slug : String
  pubDate : Int
  category : Option String
  draft : Option Bool
deriving DecidableEq, Repr

/-- JavaScript truthiness of the optional boolean `data.draft`:
`undefined` is falsy, a present boolean is its own truth value. -/
def draftTruthy : Option Bool → Bool
  | none => false
  | some b => b

/-- Modelled from the spec: astro's `getCollection (not part of this
repository) retrieves the entries of a collection, applying a per-record
inclusion predicate and keeping the collection's order.  The collection
itself is passed as a list parameter. -/
def getCollection (entries : List Post) (filterFn : Post → Bool) : List Post :=
  entries.filter filterFn

/-- `getFilteredPosts`: in production mode the predicate is
`!data.draft`, otherwise every record passes.  The production flag
`import.meta.env.PROD` is the explicit parameter `isProd`. -/
def getFilteredPosts (isProd : Bool) (entries : List Post) : List Post :=
  getCollection entries (fun p => if isProd then !(draftTruthy p.draft) else true)

/-- `getSortedPosts`: sorts by the comparator
`(a, b) => b.data.pubDate.valueOf() - a.data.pubDate.valueOf()`. -/
def getSortedPosts (posts : List Post) : List Post :=
  posts.mergeSort (fun a b => decide (b.pubDate - a.pubDate ≤ 0))

/-- JavaScript `String.prototype.split` with the single-character
separator `'/'`, on the character list of the string. -/
def splitOnSlash : List Char → List (List Char)
  | [] => [[]]
  | c :: rest =>
    if c = '/' then [] :: splitOnSlash rest
    else
      match splitOnSlash rest with
      | [] => [[c]]
      | h :: t => (c :: h) :: t

/-- The value JavaScript `parseInt(s, 10)` computes on a string of
decimal digits. -/
def parseDigits (ds : List Char) : Nat :=
  ds.foldl (fun n c => n * 10 + (c.toNat - 48)) 0

/-- `extractSequenceNumber`: split the slug on `'/'`, take the last
segment, match the leading run of decimal digits (`/^(\d+)/`) and parse
it base 10; return `Infinity` when there is no leading digit. -/
def extractSequenceNumber (slug : String) : JsNum :=
  let parts := splitOnSlash slug.data
  let filename := parts.getLastD []
  let digits := filename.takeWhile Char.isDigit
  if digits = [] then JsNum.posInf else JsNum.num (Int.ofNat (parseDigits digits))

/-- The category key
`('category' in data ? data.category : undefined) || '未分类'`:
JavaScript `||` replaces both `undefined` and the falsy empty string by
the fallback literal `"未分类"` ("uncategorized"). -/
def categoryKey : Option String → String
  | none => "未分类"
  | some s => if s = "" then "未分类" else s

/-- The comparator passed to `posts.sort` in `getSortedPostsByCategory`,
with `lc` standing for `String.prototype.localeCompare` under locale
`zh-CN`: category keys first, then the slug sequence numbers when they
differ under `!==`, else publication date descending. -/
def byCategoryComparator (lc : String → String → Int) (a b : Post) : JsNum :=
  let categoryA := categoryKey a.category
  let categoryB := categoryKey b.category
  let categoryCompare := lc categoryA categoryB
  if categoryCompare ≠ 0 then JsNum.num categoryCompare
  else
    let seqA := extractSequenceNumber a.slug
    let seqB := extractSequenceNumber b.slug
    if seqA.jsNe seqB then seqA.sub seqB
    else JsNum.num (b.pubDate - a.pubDate)

/-- `getSortedPostsByCategory`: sorts with `byCategoryComparator`. -/
def getSortedPostsByCategory (lc : String → String → Int) (posts : List Post) :
    List Post :=
  posts.mergeSort (fun a b => (byCategoryComparator lc a b).leZero)

/-- `isSameCategory`: JavaScript strict equality `===` of the two
optional category strings. -/
def isSameCategory (category1 category2 : Option String) : Bool :=
  category1 == category2

/-- JavaScript `Set.prototype.add` on a set held in insertion order:
adding an element already present changes nothing, a new element goes to
the end. -/
def setAdd (seen : List String) (c : String) : List String :=
  if c ∈ seen then seen else seen ++ [c]

/-- `getUniqueCategories`: collect each record's category key into a
`Set` (insertion order, duplicates collapse), then sort the distinct
values with `(a, b) => a.localeCompare(b, 'zh-CN')`. -/
def getUniqueCategories (lc : String → String → Int) (posts : List Post) :
    List String :=
  let categoriesSet := posts.foldl (fun s post => setAdd s (categoryKey post.category)) []
  categoriesSet.mergeSort (fun a b => decide (lc a b ≤ 0))

/-- The properties of a locale-aware comparison function such as
`localeCompare`: the sign of the result is induced by a total preorder
on strings (reflexively zero, antisymmetric in sign, and transitive in
the strict and the equivalence parts). -/
structure LawfulLocaleCompare (lc : String → String → Int) : Prop where
  refl : ∀ x, lc x x = 0
  zero_symm : ∀ x y, lc x y = 0 → lc y x = 0
  pos_asymm : ∀ x y, 0 < lc x y → lc y x < 0
  neg_trans : ∀ x y z, lc x y < 0 → lc y z < 0 → lc x z < 0
  zero_neg_trans : ∀ x y z, lc x y = 0 → lc y z < 0 → lc x z < 0
  neg_zero_trans : ∀ x y z, lc x y < 0 → lc y z = 0 → lc x z < 0
  zero_trans : ∀ x y z, lc x y = 0 → lc y z = 0 → lc x z = 0

/-- Three-way lexicographic comparison of character lists by code
point. -/
def charListCompare : List Char → List Char → Int
  | [], [] => 0
  | [], _ :: _ => -1
  | _ :: _, [] => 1
  | a :: as, b :: bs => if a < b then -1 else if b < a then 1 else charListCompare as bs

/-- A concrete lawful comparison (Unicode code-point order), used to
instantiate the parametrized theorems on closed inputs. -/
def lcStd (x y : String) : Int := charListCompare x.data y.data

/-- The strict order on sequence keys in which `Infinity` is above every
plain number. -/
def seqLt : JsNum → JsNum → Prop
  | JsNum.num i, JsNum.num j => i < j
  | JsNum.num _, JsNum.posInf => True
  | _, _ => False

/-- The reflexive order on sequence keys. -/
def seqLe (x y : JsNum) : Prop := seqLt x y ∨ x = y

/-- The tie-break relation of the category comparator once the category
keys compare equal: strictly smaller sequence key, or identical sequence
keys and publication date not before the other's. -/
def tieBreakLe (a b : Post) : Prop :=
  seqLt (extractSequenceNumber a.slug) (extractSequenceNumber b.slug) ∨
    (extractSequenceNumber a.slug = extractSequenceNumber b.slug ∧ b.pubDate ≤ a.pubDate)

/-- The three-key ordering the specification describes for the output of
`getSortedPostsByCategory`: category keys in nondecreasing locale order;
among equal category keys nondecreasing sequence numbers (a missing
sequence counting as `+∞`); among equal category keys and equal sequence
keys nonincreasing publication dates. -/
def byCategoryRel (lc : String → String → Int) (x y : Post) : Prop :=
  lc (categoryKey x.category) (categoryKey y.category) ≤ 0 ∧
    (lc (categoryKey x.category) (categoryKey y.category) = 0 →
      seqLe (extractSequenceNumber x.slug) (extractSequenceNumber y.slug) ∧
        (extractSequenceNumber x.slug = extractSequenceNumber y.slug →
          y.pubDate ≤ x.pubDate))

example : extractSequenceNumber "langchain/1-basics" = JsNum.num 1 := by decide
example : extractSequenceNumber "langchain/basics" = JsNum.posInf := by decide
example : extractSequenceNumber "10" = JsNum.num 10 := by decide
example : categoryKey (some "") = "未分类" := by decide
example : getFilteredPosts true [⟨"a", 0, none, some true⟩] = [] := by decide

/-- The code-point comparison is zero exactly on equal lists. -/
lemma charListCompare_eq_zero_iff :
    ∀ x y : List Char, charListCompare x y = 0 ↔ x = y := by
  intro x
  induction x with
  | nil =>
    intro y
    cases y <;> simp [charListCompare]
  | cons a as ih =>
    intro y
    cases y with
    | nil => simp [charListCompare]
    | cons b bs =>
      by_cases hab : a < b
      · simp [charListCompare, hab]
        intro h
        exact absurd (h ▸ hab) (lt_irrefl b)
      · by_cases hba : b < a
        · simp [charListCompare, hab, hba]
          intro h
          exact absurd (h ▸ hba) (lt_irrefl b)
        · have heq : a = b := le_antisymm (not_lt.mp hba) (not_lt.mp hab)
          simp [charListCompare, hab, hba, heq, ih]

/-- Swapping the arguments of the code-point comparison negates it. -/
lemma charListCompare_antisym :
    ∀ x y : List Char, charListCompare y x = - charListCompare x y := by
  intro x
  induction x with
  | nil =>
    intro y
    cases y <;> simp [charListCompare]
  | cons a as ih =>
    intro y
    cases y with
    | nil => simp [charListCompare]
    | cons b bs =>
      by_cases hab : a < b
      · have hba : ¬ b < a := lt_asymm hab
        simp [charListCompare, hab, hba]
      · by_cases hba : b < a
        · simp [charListCompare, hab, hba]
        · simp [charListCompare, hab, hba, ih]

/-- The strict part of the code-point comparison is transitive. -/
lemma charListCompare_neg_trans :
    ∀ x y z : List Char, charListCompare x y < 0 → charListCompare y z < 0 →
      charListCompare x z < 0 := by
  intro x
  induction x with
  | nil =>
    intro y z hxy hyz
    cases z with
    | nil =>
      cases y <;> simp [charListCompare] at hxy hyz
    | cons c cs => simp [charListCompare]
  | cons a as ih =>
    intro y z hxy hyz
    cases y with
    | nil => simp [charListCompare] at hxy
    | cons b bs =>
      cases z with
      | nil => simp [charListCompare] at hyz
      | cons c cs =>
        have hab : a < b ∨ (a = b ∧ charListCompare as bs < 0) := by
          by_cases h1 : a < b
          · exact Or.inl h1
          · by_cases h2 : b < a
            · simp [charListCompare, h1, h2] at hxy
            · exact Or.inr ⟨le_antisymm (not_lt.mp h2) (not_lt.mp h1),
                by simpa [charListCompare, h1, h2] using hxy⟩
        have hbc : b < c ∨ (b = c ∧ charListCompare bs cs < 0) := by
          by_cases h1 : b < c
          · exact Or.inl h1
          · by_cases h2 : c < b
            · simp [charListCompare, h1, h2] at hyz
            · exact Or.inr ⟨le_antisymm (not_lt.mp h2) (not_lt.mp h1),
                by simpa [charListCompare, h1, h2] using hyz⟩
        have hac : a < c ∨ (a = c ∧ charListCompare as cs < 0) := by
          rcases hab with h1 | ⟨rfl, h1⟩
          · rcases hbc with h2 | ⟨rfl, h2⟩
            · exact Or.inl (lt_trans h1 h2)
            · exact Or.inl h1
          · rcases hbc with h2 | ⟨rfl, h2⟩
            · exact Or.inl h2
            · exact Or.inr ⟨rfl, ih bs cs h1 h2⟩
        rcases hac with h1 | ⟨rfl, h1⟩
        · have h2 : ¬ c < a := lt_asymm h1
          simp [charListCompare, h1, h2]
        · simp [charListCompare, lt_irrefl, h1]

/-- The code-point comparison satisfies the locale-comparison axioms. -/
lemma lcStd_lawful : LawfulLocaleCompare lcStd := by
  have hzero : ∀ x y : String, lcStd x y = 0 ↔ x.data = y.data := fun x y =>
    charListCompare_eq_zero_iff x.data y.data
  constructor
  · intro x
    exact (hzero x x).mpr rfl
  · intro x y h
    unfold lcStd at h ⊢
    rw [charListCompare_antisym]
    omega
  · intro x y h
    unfold lcStd at h ⊢
    rw [charListCompare_antisym]
    omega
  · intro x y z h1 h2
    exact charListCompare_neg_trans x.data y.data z.data h1 h2
  · intro x y z h1 h2
    unfold lcStd at h2 ⊢
    rw [← (hzero x y).mp h1] at h2
    exact h2
  · intro x y z h1 h2
    unfold lcStd at h1 ⊢
    rw [(hzero y z).mp h2] at h1
    exact h1
  · intro x y z h1 h2
    exact (hzero x z).mpr (((hzero x y).mp h1).trans ((hzero y z).mp h2))

/-- Unfolding equation for `extractSequenceNumber`. -/
lemma extractSequenceNumber_eq (s : String) :
    extractSequenceNumber s =
      (if List.takeWhile Char.isDigit ((splitOnSlash s.data).getLastD []) = []
       then JsNum.posInf
       else JsNum.num (Int.ofNat (parseDigits
         (List.takeWhile Char.isDigit ((splitOnSlash s.data).getLastD []))))) := rfl

/-- `extractSequenceNumber` only produces a plain number or `Infinity`,
never `-Infinity` or `NaN`. -/
lemma extract_shape (s : String) :
    (∃ n : Int, extractSequenceNumber s = JsNum.num n) ∨
      extractSequenceNumber s = JsNum.posInf := by
  rw [extractSequenceNumber_eq]
  split
  · right; rfl
  · left; exact ⟨_, rfl⟩

/-- Characterization of a non-positive category-comparator result:
strictly smaller category key, or equal category keys and the tie-break
relation. -/
lemma byCategoryComparator_leZero_iff (lc : String → String → Int) (a b : Post) :
    (byCategoryComparator lc a b).leZero = true ↔
      (lc (categoryKey a.category) (categoryKey b.category) < 0 ∨
        (lc (categoryKey a.category) (categoryKey b.category) = 0 ∧ tieBreakLe a b)) := by
  unfold byCategoryComparator tieBreakLe
  by_cases hc : lc (categoryKey a.category) (categoryKey b.category) = 0
  · rcases extract_shape a.slug with ⟨i, hi⟩ | hi <;>
      rcases extract_shape b.slug with ⟨j, hj⟩ | hj
    · by_cases hij : i = j
      · simp [hc, hi, hj, hij, JsNum.jsNe, JsNum.sub, JsNum.leZero, seqLt]
      · simp [hc, hi, hj, hij, JsNum.jsNe, JsNum.sub, JsNum.leZero, seqLt]
        omega
    · simp [hc, hi, hj, JsNum.jsNe, JsNum.sub, JsNum.leZero, seqLt]
    · simp [hc, hi, hj, JsNum.jsNe, JsNum.sub, JsNum.leZero, seqLt]
    · simp [hc, hi, hj, JsNum.jsNe, JsNum.sub, JsNum.leZero, seqLt]
  · simp [hc, JsNum.leZero]
    omega

/-- A strictly smaller sequence key is a different sequence key. -/
lemma seqLt_ne {x y : JsNum} (h : seqLt x y) : x ≠ y := by
  cases x <;> cases y <;> simp [seqLt] at h ⊢
  omega

/-- The tie-break relation is total on posts. -/
lemma tieBreakLe_total (a b : Post) : tieBreakLe a b ∨ tieBreakLe b a := by
  unfold tieBreakLe
  rcases extract_shape a.slug with ⟨i, hi⟩ | hi <;>
    rcases extract_shape b.slug with ⟨j, hj⟩ | hj <;>
      simp [hi, hj, seqLt] <;> omega

/-- The tie-break relation is transitive. -/
lemma tieBreakLe_trans {a b c : Post} (h1 : tieBreakLe a b) (h2 : tieBreakLe b c) :
    tieBreakLe a c := by
  unfold tieBreakLe at h1 h2 ⊢
  rcases extract_shape a.slug with ⟨i, hi⟩ | hi <;>
    rcases extract_shape b.slug with ⟨j, hj⟩ | hj <;>
      rcases extract_shape c.slug with ⟨k, hk⟩ | hk <;>
        simp [hi, hj, hk, seqLt] at h1 h2 ⊢ <;> omega

/-- Totality of the boolean relation `getSortedPostsByCategory` sorts by. -/
lemma byCategoryComparator_leZero_total (lc : String → String → Int)
    (h : LawfulLocaleCompare lc) (a b : Post) :
    ((byCategoryComparator lc a b).leZero || (byCategoryComparator lc b a).leZero) = true := by
  rw [Bool.or_eq_true, byCategoryComparator_leZero_iff, byCategoryComparator_leZero_iff]
  rcases lt_trichotomy (lc (categoryKey a.category) (categoryKey b.category)) 0 with
    hlt | heq | hgt
  · exact Or.inl (Or.inl hlt)
  · rcases tieBreakLe_total a b with ht | ht
    · exact Or.inl (Or.inr ⟨heq, ht⟩)
    · exact Or.inr (Or.inr ⟨h.zero_symm _ _ heq, ht⟩)
  · exact Or.inr (Or.inl (h.pos_asymm _ _ hgt))

/-- Transitivity of the boolean relation `getSortedPostsByCategory`
sorts by. -/
lemma byCategoryComparator_leZero_trans (lc : String → String → Int)
    (h : LawfulLocaleCompare lc) (a b c : Post)
    (h1 : (byCategoryComparator lc a b).leZero = true)
    (h2 : (byCategoryComparator lc b c).leZero = true) :
    (byCategoryComparator lc a c).leZero = true := by
  rw [byCategoryComparator_leZero_iff] at h1 h2 ⊢
  rcases h1 with h1 | ⟨h1, t1⟩ <;> rcases h2 with h2 | ⟨h2, t2⟩
  · exact Or.inl (h.neg_trans _ _ _ h1 h2)
  · exact Or.inl (h.neg_zero_trans _ _ _ h1 h2)
  · exact Or.inl (h.zero_neg_trans _ _ _ h1 h2)
  · exact Or.inr ⟨h.zero_trans _ _ _ h1 h2, tieBreakLe_trans t1 t2⟩

/-- A non-positive comparator result yields the specification's
three-key ordering. -/
lemma leZero_imp_rel (lc : String → String → Int) (a b : Post)
    (hab : (byCategoryComparator lc a b).leZero = true) : byCategoryRel lc a b := by
  rw [byCategoryComparator_leZero_iff] at hab
  rcases hab with hlt | ⟨heq, ht⟩
  · exact ⟨le_of_lt hlt, fun h0 => absurd h0 (by omega)⟩
  · refine ⟨le_of_eq heq, fun _ => ?_⟩
    rcases ht with hs | ⟨hs, hd⟩
    · exact ⟨Or.inl hs, fun he => absurd he (seqLt_ne hs)⟩
    · exact ⟨Or.inr hs, fun _ => hd⟩

/-- C1: in the output of `getSortedPostsByCategory`, whenever X precedes
Y, the category key of X (with fallback) is at most that of Y under the
locale comparison; if the category keys compare equal, the sequence key
of X is at most that of Y with a missing sequence counting as `+∞`; and
if the sequence keys are also equal, X's publication date is at least
Y's. -/
theorem getSortedPostsByCategory_sorted (lc : String → String → Int)
    (h : LawfulLocaleCompare lc) (posts : List Post) :
    (getSortedPostsByCategory lc posts).Pairwise (byCategoryRel lc) := by
  unfold getSortedPostsByCategory
  exact (List.sorted_mergeSort
      (fun a b c => byCategoryComparator_leZero_trans lc h a b c)
      (fun a b => byCategoryComparator_leZero_total lc h a b) posts).imp
    (fun {a b} hab => leZero_imp_rel lc a b hab)

/-- Witness for C1 on a closed input. -/
theorem getSortedPostsByCategory_sorted_witness :
    (getSortedPostsByCategory lcStd
        [⟨"langchain/2-b", 5, some "A", none⟩, ⟨"langchain/1-a", 3, some "A", none⟩]).Pairwise
      (byCategoryRel lcStd) :=
  getSortedPostsByCategory_sorted lcStd lcStd_lawful
    [⟨"langchain/2-b", 5, some "A", none⟩, ⟨"langchain/1-a", 3, some "A", none⟩]

/-- C5: the output of `getSortedPosts` is nonincreasing in publication
date: every element's `pubDate` is at least that of every later
element. -/
theorem getSortedPosts_sorted (posts : List Post) :
    (getSortedPosts posts).Pairwise (fun x y => y.pubDate ≤ x.pubDate) := by
  unfold getSortedPosts
  refine (List.sorted_mergeSort ?_ ?_ posts).imp ?_
  · intro a b c hab hbc
    simp only [decide_eq_true_eq] at hab hbc ⊢
    omega
  · intro a b
    simp only [Bool.or_eq_true, decide_eq_true_eq]
    omega
  · intro a b hab
    simp only [decide_eq_true_eq] at hab
    omega

/-- C7: both sort operations return a permutation of their input, with
every record's contents unchanged. -/
theorem sortOperations_permutation (lc : String → String → Int) (posts : List Post) :
    (getSortedPosts posts).Perm posts ∧ (getSortedPostsByCategory lc posts).Perm posts :=
  ⟨List.mergeSort_perm posts _, List.mergeSort_perm posts _⟩

/-- Membership in a set after a JavaScript `Set.prototype.add`. -/
lemma mem_setAdd (acc : List String) (x c : String) :
    c ∈ setAdd acc x ↔ c ∈ acc ∨ c = x := by
  unfold setAdd
  split
  · rename_i hx
    constructor
    · exact Or.inl
    · rintro (h | rfl)
      · exact h
      · exact hx
  · simp

/-- `Set.prototype.add` keeps the set duplicate-free. -/
lemma nodup_setAdd (acc : List String) (x : String) (h : acc.Nodup) :
    (setAdd acc x).Nodup := by
  unfold setAdd
  split
  · exact h
  · rename_i hx
    simp [List.nodup_append, h, hx]

/-- Membership in the set built by `getUniqueCategories`'s `forEach`
loop. -/
lemma mem_foldl_setAddKey (posts : List Post) (acc : List String) (c : String) :
    c ∈ posts.foldl (fun s post => setAdd s (categoryKey post.category)) acc ↔
      c ∈ acc ∨ ∃ p ∈ posts, categoryKey p.category = c := by
  induction posts generalizing acc with
  | nil => simp
  | cons x xs ih =>
    rw [List.foldl_cons, ih, mem_setAdd]
    constructor
    · rintro ((h | h) | ⟨p, hp, hk⟩)
      · exact Or.inl h
      · exact Or.inr ⟨x, List.mem_cons_self x xs, h.symm⟩
      · exact Or.inr ⟨p, List.mem_cons_of_mem x hp, hk⟩
    · rintro (h | ⟨p, hp, hk⟩)
      · exact Or.inl (Or.inl h)
      · rcases List.mem_cons.mp hp with rfl | hp
        · exact Or.inl (Or.inr hk.symm)
        · exact Or.inr ⟨p, hp, hk⟩

/-- The set built by `getUniqueCategories`'s `forEach` loop is
duplicate-free. -/
lemma nodup_foldl_setAddKey (posts : List Post) (acc : List String) (h : acc.Nodup) :
    (posts.foldl (fun s post => setAdd s (categoryKey post.category)) acc).Nodup := by
  induction posts generalizing acc with
  | nil => exact h
  | cons x xs ih => exact ih _ (nodup_setAdd _ _ h)

/-- C4: `getFilteredPosts` in non-production mode returns its input
unchanged; in production mode it returns exactly the records whose draft
flag is not `true`, in input order (a sublist of the input). -/
theorem getFilteredPosts_spec (posts : List Post) :
    getFilteredPosts false posts = posts ∧
      getFilteredPosts true posts = posts.filter (fun p => decide (p.draft ≠ some true)) ∧
      List.Sublist (getFilteredPosts true posts) posts := by
  unfold getFilteredPosts getCollection
  refine ⟨?_, ?_, ?_⟩
  · simp
  · apply List.filter_congr
    intro p _
    cases hd : p.draft with
    | none => simp [draftTruthy]
    | some b => cases b <;> simp [draftTruthy]
  · exact List.filter_sublist _

/-- C8: the comparator of `getSortedPostsByCategory` always produces an
actual number or an infinity, never `NaN`; in particular when the
category keys compare equal and both slugs lack a sequence number, the
`seqA !== seqB` guard fails (`Infinity === Infinity`) and the comparator
falls through to the publication-date key instead of computing
`Infinity - Infinity`. -/
theorem byCategoryComparator_no_nan (lc : String → String → Int) (a b : Post) :
    ((∃ i : Int, byCategoryComparator lc a b = JsNum.num i) ∨
        byCategoryComparator lc a b = JsNum.posInf ∨
        byCategoryComparator lc a b = JsNum.negInf) ∧
      byCategoryComparator lc a b ≠ JsNum.nan ∧
      (lc (categoryKey a.category) (categoryKey b.category) = 0 →
        extractSequenceNumber a.slug = JsNum.posInf →
        extractSequenceNumber b.slug = JsNum.posInf →
        byCategoryComparator lc a b = JsNum.num (b.pubDate - a.pubDate)) := by
  have hshape : (∃ i : Int, byCategoryComparator lc a b = JsNum.num i) ∨
      byCategoryComparator lc a b = JsNum.posInf ∨
      byCategoryComparator lc a b = JsNum.negInf := by
    by_cases hc : lc (categoryKey a.category) (categoryKey b.category) = 0
    · rcases extract_shape a.slug with ⟨i, hi⟩ | hi <;>
        rcases extract_shape b.slug with ⟨j, hj⟩ | hj
      · by_cases hij : i = j <;>
          simp [byCategoryComparator, hc, hi, hj, hij, JsNum.jsNe, JsNum.sub]
      · simp [byCategoryComparator, hc, hi, hj, JsNum.jsNe, JsNum.sub]
      · simp [byCategoryComparator, hc, hi, hj, JsNum.jsNe, JsNum.sub]
      · simp [byCategoryComparator, hc, hi, hj, JsNum.jsNe, JsNum.sub]
    · simp [byCategoryComparator, hc]
  refine ⟨hshape, ?_, ?_⟩
  · rcases hshape with ⟨i, hi⟩ | hi | hi <;> simp [hi]
  · intro h0 ha hb
    simp [byCategoryComparator, h0, ha, hb, JsNum.jsNe]

/-- Witness for C8 on a closed input: two posts in the same category
whose slugs have no sequence number are compared by publication date. -/
theorem byCategoryComparator_no_nan_witness :
    byCategoryComparator lcStd ⟨"a/x", 2, some "C", none⟩ ⟨"a/y", 7, some "C", none⟩ =
      JsNum.num (7 - 2) :=
  (byCategoryComparator_no_nan lcStd ⟨"a/x", 2, some "C", none⟩
    ⟨"a/y", 7, some "C", none⟩).2.2 (by decide) (by decide) (by decide)

/-- C9: a present-but-empty category string is treated like an absent
one: both are keyed by the fallback literal, the key is never the empty
string, the empty string never appears in `getUniqueCategories`, and
replacing an empty-string category by an absent one changes nothing in
the category comparator. -/
theorem emptyCategory_fallback (lc : String → String → Int) (posts : List Post)
    (a b : Post) :
    categoryKey (some "") = categoryKey none ∧
      (∀ c : Option String, categoryKey c ≠ "") ∧
      "" ∉ getUniqueCategories lc posts ∧
      byCategoryComparator lc { a with category := some "" } b =
        byCategoryComparator lc { a with category := none } b ∧
      byCategoryComparator lc a { b with category := some "" } =
        byCategoryComparator lc a { b with category := none } := by
  have hkey : ∀ c : Option String, categoryKey c ≠ "" := by
    intro c
    cases c with
    | none => decide
    | some s =>
      by_cases hs : s = "" <;> simp [categoryKey, hs]
  refine ⟨rfl, hkey, ?_, rfl, rfl⟩
  intro hmem
  rw [getUniqueCategories, List.mem_mergeSort, mem_foldl_setAddKey] at hmem
  rcases hmem with h | ⟨p, _, hk⟩
  · exact List.not_mem_nil "" h
  · exact hkey p.category hk

/-- The weak part of a lawful locale comparison is transitive. -/
lemma lc_le_trans (lc : String → String → Int) (h : LawfulLocaleCompare lc)
    {x y z : String} (h1 : lc x y ≤ 0) (h2 : lc y z ≤ 0) : lc x z ≤ 0 := by
  by_cases e1 : lc x y = 0
  · by_cases e2 : lc y z = 0
    · exact le_of_eq (h.zero_trans x y z e1 e2)
    · exact le_of_lt (h.zero_neg_trans x y z e1 (by omega))
  · by_cases e2 : lc y z = 0
    · exact le_of_lt (h.neg_zero_trans x y z (by omega) e2)
    · exact le_of_lt (h.neg_trans x y z (by omega) (by omega))

/-- The weak part of a lawful locale comparison is total. -/
lemma lc_le_total (lc : String → String → Int) (h : LawfulLocaleCompare lc)
    (x y : String) : lc x y ≤ 0 ∨ lc y x ≤ 0 := by
  rcases lt_trichotomy (lc x y) 0 with h1 | h1 | h1
  · exact Or.inl (le_of_lt h1)
  · exact Or.inl (le_of_eq h1)
  · exact Or.inr (le_of_lt (h.pos_asymm x y h1))

/-- What it means for the key of a record to equal a given string:
either the record has that (nonempty) category, or its category is
absent or empty and the string is the fallback literal. -/
lemma categoryKey_eq_iff (c0 : Option String) (c : String) :
    categoryKey c0 = c ↔
      ((c0 = some c ∧ c ≠ "") ∨ ((c0 = none ∨ c0 = some "") ∧ c = "未分类")) := by
  cases c0 with
  | none =>
    simp only [categoryKey]
    constructor
    · intro h
      exact Or.inr ⟨Or.inl (by simp), h.symm⟩
    · rintro (⟨h, _⟩ | ⟨_, h⟩)
      · exact absurd h (by simp)
      · exact h.symm
  | some s =>
    by_cases hs : s = ""
    · subst hs
      simp only [categoryKey, if_pos rfl]
      constructor
      · intro h
        exact Or.inr ⟨Or.inr (by simp), h.symm⟩
      · rintro (⟨h, hne⟩ | ⟨_, h⟩)
        · exact absurd (Option.some.inj h).symm hne
        · exact h.symm
    · simp only [categoryKey, if_neg hs]
      constructor
      · intro h
        exact Or.inl ⟨by rw [h], h ▸ hs⟩
      · rintro (⟨h, _⟩ | ⟨h, _⟩)
        · exact Option.some.inj h
        · rcases h with h | h
          · exact absurd h (by simp)
          · exact absurd (Option.some.inj h) hs

/-- Evaluation of `getUniqueCategories` on a single record whose
category is present but empty. -/
lemma getUniqueCategories_emptyCat_eval :
    getUniqueCategories lcStd [⟨"x", 0, some "", none⟩] = ["未分类"] := by
  simp [getUniqueCategories, setAdd, categoryKey]

/-- Counterexample to C3 as stated: a record with the present category
`""` is not keyed by `""` unchanged but by the fallback literal. -/
theorem categoryKey_counterexample :
    categoryKey (some "") ≠ "" ∧ categoryKey (some "") = "未分类" ∧
      getUniqueCategories lcStd [⟨"x", 0, some "", none⟩] = ["未分类"] :=
  ⟨by decide, rfl, getUniqueCategories_emptyCat_eval⟩

/-- C3 (amended): records with an absent category are keyed by the
fallback literal `"未分类"` ("uncategorized"); records with a present
nonempty category are keyed by it unchanged; records with a present
empty category are keyed by the fallback as well.  The key is what
`getUniqueCategories` collects, and posts with equal keys are compared
by the remaining keys of the category comparator. -/
theorem categoryKey_fallback_amended (lc : String → String → Int)
    (h : LawfulLocaleCompare lc) (p : Post) (posts : List Post) :
    (p.category = none → categoryKey p.category = "未分类") ∧
      (∀ s : String, p.category = some s → s ≠ "" → categoryKey p.category = s) ∧
      (p.category = some "" → categoryKey p.category = "未分类") ∧
      (p ∈ posts → categoryKey p.category ∈ getUniqueCategories lc posts) ∧
      (∀ b : Post, categoryKey p.category = categoryKey b.category →
        byCategoryComparator lc p b =
          (if (extractSequenceNumber p.slug).jsNe (extractSequenceNumber b.slug) = true
           then (extractSequenceNumber p.slug).sub (extractSequenceNumber b.slug)
           else JsNum.num (b.pubDate - p.pubDate))) := by
  refine ⟨?_, ?_, ?_, ?_, ?_⟩
  · intro h0
    rw [h0]
    simp [categoryKey]
  · intro s hs hne
    rw [hs]
    simp [categoryKey, hne]
  · intro h0
    rw [h0]
    simp [categoryKey]
  · intro hp
    rw [getUniqueCategories, List.mem_mergeSort, mem_foldl_setAddKey]
    exact Or.inr ⟨p, hp, rfl⟩
  · intro b hk
    have h0 : lc (categoryKey p.category) (categoryKey b.category) = 0 := by
      rw [hk]
      exact h.refl _
    simp [byCategoryComparator, h0]

/-- Witness for C3 (amended) on a closed input. -/
theorem categoryKey_fallback_amended_witness :
    ((⟨"a/1", 0, some "tech", none⟩ : Post).category = none →
        categoryKey (⟨"a/1", 0, some "tech", none⟩ : Post).category = "未分类") ∧
      (∀ s : String, (⟨"a/1", 0, some "tech", none⟩ : Post).category = some s → s ≠ "" →
        categoryKey (⟨"a/1", 0, some "tech", none⟩ : Post).category = s) ∧
      ((⟨"a/1", 0, some "tech", none⟩ : Post).category = some "" →
        categoryKey (⟨"a/1", 0, some "tech", none⟩ : Post).category = "未分类") ∧
      ((⟨"a/1", 0, some "tech", none⟩ : Post) ∈ [(⟨"a/1", 0, some "tech", none⟩ : Post)] →
        categoryKey (⟨"a/1", 0, some "tech", none⟩ : Post).category ∈
          getUniqueCategories lcStd [(⟨"a/1", 0, some "tech", none⟩ : Post)]) ∧
      (∀ b : Post,
        categoryKey (⟨"a/1", 0, some "tech", none⟩ : Post).category = categoryKey b.category →
        byCategoryComparator lcStd (⟨"a/1", 0, some "tech", none⟩ : Post) b =
          (if (extractSequenceNumber (⟨"a/1", 0, some "tech", none⟩ : Post).slug).jsNe
                (extractSequenceNumber b.slug) = true
           then (extractSequenceNumber (⟨"a/1", 0, some "tech", none⟩ : Post).slug).sub
                  (extractSequenceNumber b.slug)
           else JsNum.num (b.pubDate - (⟨"a/1", 0, some "tech", none⟩ : Post).pubDate))) :=
  categoryKey_fallback_amended lcStd lcStd_lawful ⟨"a/1", 0, some "tech", none⟩
    [⟨"a/1", 0, some "tech", none⟩]

/-- Counterexample to C6 as stated: with one record of present category
`""`, the fallback literal appears in the output although no record has
it as category and none has an absent category, while `""` does not
appear although a record has category `""`. -/
theorem getUniqueCategories_counterexample :
    (∃ p ∈ [(⟨"x", 0, some "", none⟩ : Post)], p.category = some "") ∧
      "" ∉ getUniqueCategories lcStd [⟨"x", 0, some "", none⟩] ∧
      "未分类" ∈ getUniqueCategories lcStd [⟨"x", 0, some "", none⟩] ∧
      ¬ ∃ p ∈ [(⟨"x", 0, some "", none⟩ : Post)],
          p.category = some "未分类" ∨ (p.category = none ∧ "未分类" = "未分类") := by
  refine ⟨⟨_, List.mem_singleton.mpr rfl, rfl⟩, ?_, ?_, ?_⟩
  · rw [getUniqueCategories_emptyCat_eval]
    intro hmem
    rw [List.mem_singleton] at hmem
    exact absurd hmem (by decide)
  · rw [getUniqueCategories_emptyCat_eval]
    exact List.mem_singleton.mpr rfl
  · rintro ⟨p, hp, hcat | ⟨hcat, _⟩⟩ <;> rw [List.mem_singleton] at hp <;> subst hp
    · exact absurd (Option.some.inj hcat) (by decide)
    · exact absurd hcat (by simp)

/-- C6 (amended): `getUniqueCategories` has no duplicates; it contains a
string exactly when some input record has it as its (nonempty) category,
or has an absent or empty category and the string is the fallback
literal; and it is ordered by the locale comparison used by the category
sort. -/
theorem getUniqueCategories_spec (lc : String → String → Int)
    (h : LawfulLocaleCompare lc) (posts : List Post) :
    (getUniqueCategories lc posts).Nodup ∧
      (∀ c : String, c ∈ getUniqueCategories lc posts ↔
        ∃ p ∈ posts, ((p.category = some c ∧ c ≠ "") ∨
          ((p.category = none ∨ p.category = some "") ∧ c = "未分类"))) ∧
      (getUniqueCategories lc posts).Pairwise (fun x y => lc x y ≤ 0) := by
  unfold getUniqueCategories
  refine ⟨?_, ?_, ?_⟩
  · exact ((List.mergeSort_perm _ _).nodup_iff).mpr
      (nodup_foldl_setAddKey posts [] List.nodup_nil)
  · intro c
    rw [List.mem_mergeSort, mem_foldl_setAddKey]
    simp only [List.not_mem_nil, false_or]
    constructor
    · rintro ⟨p, hp, hk⟩
      exact ⟨p, hp, (categoryKey_eq_iff p.category c).mp hk⟩
    · rintro ⟨p, hp, hk⟩
      exact ⟨p, hp, (categoryKey_eq_iff p.category c).mpr hk⟩
  · refine (List.sorted_mergeSort ?_ ?_ _).imp ?_
    · intro a b c hab hbc
      simp only [decide_eq_true_eq] at hab hbc ⊢
      exact lc_le_trans lc h hab hbc
    · intro a b
      simp only [Bool.or_eq_true, decide_eq_true_eq]
      exact lc_le_total lc h a b
    · intro a b hab
      simpa using hab

/-- Witness for C6 (amended) on a closed input. -/
theorem getUniqueCategories_spec_witness :
    (getUniqueCategories lcStd [⟨"a/1", 0, some "tech", none⟩]).Nodup ∧
      (∀ c : String, c ∈ getUniqueCategories lcStd [⟨"a/1", 0, some "tech", none⟩] ↔
        ∃ p ∈ [(⟨"a/1", 0, some "tech", none⟩ : Post)], ((p.category = some c ∧ c ≠ "") ∨
          ((p.category = none ∨ p.category = some "") ∧ c = "未分类"))) ∧
      (getUniqueCategories lcStd [⟨"a/1", 0, some "tech", none⟩]).Pairwise
        (fun x y => lcStd x y ≤ 0) :=
  getUniqueCategories_spec lcStd lcStd_lawful [⟨"a/1", 0, some "tech", none⟩]

/-- C10: `isSameCategory` is strict equality of the optional category
strings with no fallback substitution: two absent categories are the
same, an absent category differs from the fallback literal, even though
`categoryKey` puts both in the same bucket. -/
theorem isSameCategory_spec :
    isSameCategory none none = true ∧
      isSameCategory none (some "未分类") = false ∧
      isSameCategory (some "未分类") none = false ∧
      categoryKey none = categoryKey (some "未分类") ∧
      ∀ (a b : Option String), isSameCategory a b = decide (a = b) := by
  refine ⟨rfl, rfl, rfl, rfl, ?_⟩
  intro a b
  by_cases h : a = b <;> simp [isSameCategory, h]

/-- `splitOnSlash` never returns the empty list (JavaScript `split`
always yields at least one segment). -/
lemma splitOnSlash_ne_nil (s : List Char) : splitOnSlash s ≠ [] := by
  cases s with
  | nil => simp [splitOnSlash]
  | cons c rest =>
    rw [splitOnSlash]
    by_cases hc : c = '/'
    · simp [hc]
    · rw [if_neg hc]
      split <;> simp

/-- Splitting around a separator concatenates the two splits. -/
lemma splitOnSlash_append (p t : List Char) :
    splitOnSlash (p ++ '/' :: t) = splitOnSlash p ++ splitOnSlash t := by
  induction p with
  | nil => simp [splitOnSlash]
  | cons c p ih =>
    by_cases hc : c = '/'
    · subst hc
      rw [List.cons_append, splitOnSlash, if_pos rfl, ih]
      rw [show splitOnSlash ('/' :: p) = [] :: splitOnSlash p from by
        rw [splitOnSlash, if_pos rfl]]
      rfl
    · rw [List.cons_append, splitOnSlash, if_neg hc, ih]
      rw [show splitOnSlash (c :: p) =
        (match splitOnSlash p with
         | [] => [[c]]
         | h :: t => (c :: h) :: t) from by rw [splitOnSlash, if_neg hc]]
      cases hp : splitOnSlash p with
      | nil => exact absurd hp (splitOnSlash_ne_nil p)
      | cons h rest => simp

/-- A separator-free string is its own single segment. -/
lemma splitOnSlash_no_slash : ∀ t : List Char, '/' ∉ t → splitOnSlash t = [t] := by
  intro t
  induction t with
  | nil => intro _; rfl
  | cons c rest ih =>
    intro h
    have hc : ¬ c = '/' := fun e => h (e ▸ List.mem_cons_self c rest)
    have hr : '/' ∉ rest := fun hh => h (List.mem_cons_of_mem c hh)
    rw [splitOnSlash, if_neg hc, ih hr]

/-- The last element of a concatenation with a nonempty second part. -/
lemma getLastD_append {α : Type} (l1 l2 : List α) (h : l2 ≠ []) (d : α) :
    (l1 ++ l2).getLastD d = l2.getLastD d := by
  induction l1 generalizing d with
  | nil => rfl
  | cons x l1 ih =>
    rw [List.cons_append, List.getLastD_cons, ih x]
    cases l2 with
    | nil => exact absurd rfl h
    | cons y ys => rw [List.getLastD_cons, List.getLastD_cons]

/-- The leading digit run of a digit block followed by a non-digit (or
nothing) is the digit block itself. -/
lemma takeWhile_digits_append (ds rest : List Char) (hds : ∀ c ∈ ds, c.isDigit = true)
    (hrest : ∀ c, rest.head? = some c → c.isDigit = false) :
    (ds ++ rest).takeWhile Char.isDigit = ds := by
  induction ds with
  | nil =>
    cases rest with
    | nil => rfl
    | cons c rs =>
      have hc := hrest c rfl
      simp [List.takeWhile_cons, hc]
  | cons d ds ih =>
    have hd : d.isDigit = true := hds d (List.mem_cons_self _ _)
    simp [List.takeWhile_cons, hd,
      ih (fun c hc => hds c (List.mem_cons_of_mem _ hc))]

/-- `parseDigits` with any accumulator, against Mathlib's positional
value function. -/
lemma parseDigits_go (ds : List Char) : ∀ a : Nat,
    ds.foldl (fun n c => n * 10 + (c.toNat - 48)) a =
      a * 10 ^ ds.length + Nat.ofDigits 10 ((ds.map fun c => c.toNat - 48).reverse) := by
  induction ds with
  | nil =>
    intro a
    simp [Nat.ofDigits]
  | cons c ds ih =>
    intro a
    rw [List.foldl_cons, ih]
    rw [List.map_cons, List.reverse_cons, Nat.ofDigits_append]
    simp [Nat.ofDigits_singleton, pow_succ]
    ring

/-- `parseDigits` computes the base-10 positional value of the digit
characters. -/
lemma parseDigits_eq_ofDigits (ds : List Char) :
    parseDigits ds = Nat.ofDigits 10 ((ds.map fun c => c.toNat - 48).reverse) := by
  have h := parseDigits_go ds 0
  simpa [parseDigits] using h

/-- C2: `extractSequenceNumber` only looks at the part of the identifier
after the last separator; on a separator-free identifier it returns
`Infinity` when there is no leading digit, and otherwise the base-10
value of the leading digit run; the missing-sequence sentinel is above
every plain number; and the three examples evaluate as the
specification states. -/
theorem extractSequenceNumber_spec :
    (∀ p t : String, '/' ∉ t.data →
        extractSequenceNumber (p ++ "/" ++ t) = extractSequenceNumber t) ∧
      (∀ t : String, '/' ∉ t.data → (∀ c, t.data.head? = some c → c.isDigit = false) →
        extractSequenceNumber t = JsNum.posInf) ∧
      (∀ t : String, '/' ∉ t.data → ∀ ds rest : List Char,
        t.data = ds ++ rest → ds ≠ [] →
        (∀ c ∈ ds, c.isDigit = true) → (∀ c, rest.head? = some c → c.isDigit = false) →
        extractSequenceNumber t =
          JsNum.num (Int.ofNat (Nat.ofDigits 10 ((ds.map fun c => c.toNat - 48).reverse)))) ∧
      (∀ n : Int, seqLt (JsNum.num n) JsNum.posInf ∧ ¬ seqLt JsNum.posInf (JsNum.num n)) ∧
      extractSequenceNumber "langchain/1-basics" = JsNum.num 1 ∧
      extractSequenceNumber "langchain/basics" = JsNum.posInf ∧
      extractSequenceNumber "10" = JsNum.num 10 := by
  refine ⟨?_, ?_, ?_, ?_, by decide, by decide, by decide⟩
  · intro p t ht
    rw [extractSequenceNumber_eq, extractSequenceNumber_eq]
    rw [show (p ++ "/" ++ t).data = p.data ++ '/' :: t.data from by
      simp [String.data_append]]
    rw [splitOnSlash_append, getLastD_append _ _ (splitOnSlash_ne_nil t.data)]
  · intro t ht hhead
    rw [extractSequenceNumber_eq, splitOnSlash_no_slash t.data ht,
      List.getLastD_cons, List.getLastD_nil]
    cases htd : t.data with
    | nil => simp
    | cons c rs =>
      have hc : c.isDigit = false := hhead c (by rw [htd]; rfl)
      simp [List.takeWhile_cons, hc]
  · intro t ht ds rest hsplit hne hds hrest
    rw [extractSequenceNumber_eq, splitOnSlash_no_slash t.data ht,
      List.getLastD_cons, List.getLastD_nil, hsplit,
      takeWhile_digits_append ds rest hds hrest, if_neg hne,
      parseDigits_eq_ofDigits]
  · intro n
    exact ⟨trivial, fun hf => hf⟩

/-- Witness for C2 on closed inputs. -/
theorem extractSequenceNumber_spec_witness :
    extractSequenceNumber ("langchain" ++ "/" ++ "1-basics") =
        extractSequenceNumber "1-basics" ∧
      extractSequenceNumber "basics" = JsNum.posInf ∧
      extractSequenceNumber "10" =
        JsNum.num (Int.ofNat (Nat.ofDigits 10
          ((['1', '0'].map fun c => c.toNat - 48).reverse))) :=
  ⟨extractSequenceNumber_spec.1 "langchain" "1-basics" (by decide),
   extractSequenceNumber_spec.2.1 "basics" (by decide)
     (fun c hc => by
       have h2 : some 'b' = some c := hc
       cases h2
       decide),
   extractSequenceNumber_spec.2.2.1 "10" (by decide) ['1', '0'] [] (by decide)
     (by decide) (by decide) (fun c hc => nomatch hc)⟩
